import Mathlib

/-!
Shallow embedding of `slicc_tools.py` (repository `slicc_2021`).

State vectors (numpy arrays) are modelled as functions `Fin n → K` over a
field `K`; element-wise numpy arithmetic becomes pointwise arithmetic.
Rational numbers `ℚ` stand in for exact evaluation; the reals `ℝ` are used
where a claim mentions `e^0.1`.
-/

/-- A state vector of dimension `n` over the scalar field `K`
(the embedding of a numpy array of length `n`). -/
abbrev Vec (n : ℕ) (K : Type) : Type := Fin n → K

/-- Embedding of `runge_kutta(x_i, func, dt)` from `slicc_tools.py`.
The Python default `dt = 0.1` is modelled by `runge_kutta_default_dt` below.
`func(x) * dt` is numpy element-wise scalar multiplication, hence pointwise. -/
def runge_kutta {K : Type} [Field K] {n : ℕ} (x_i : Vec n K)
    (func : Vec n K → Vec n K) (dt : K) : Vec n K :=
  let k_1 : Vec n K := fun i => func x_i i * dt
  let k_2 : Vec n K := fun i => func (fun j => x_i j + 1/2 * k_1 j) i * dt
  let k_3 : Vec n K := fun i => func (fun j => x_i j + 1/2 * k_2 j) i * dt
  let k_4 : Vec n K := fun i => func (fun j => x_i j + k_3 j) i * dt
  fun i => x_i i + 1/6 * (k_1 i + 2 * k_2 i + 2 * k_3 i + k_4 i)

/-- The Python signature is `runge_kutta(x_i, func, dt = 0.1)`: this is the
default step size substituted when the caller omits `dt`. -/
def runge_kutta_default_dt {K : Type} [Field K] : K := 1/10

/-- A call `runge_kutta(x_i, func)` that omits `dt` in Python: the default
`dt = 0.1` is filled in. -/
def runge_kutta_omit_dt {K : Type} [Field K] {n : ℕ} (x_i : Vec n K)
    (func : Vec n K → Vec n K) : Vec n K :=
  runge_kutta x_i func runge_kutta_default_dt

/-- Embedding of `lorenz(v, r, sigma, b)` from `slicc_tools.py`. -/
def lorenz {K : Type} [Field K] (v : Vec 3 K) (r sigma b : K) : Vec 3 K :=
  let x := v 0
  let y := v 1
  let z := v 2
  let x_deriv := sigma * (y - x)
  let y_deriv := r * x - y - x * z
  let z_deriv := x * y - b * z
  ![x_deriv, y_deriv, z_deriv]

/-- Embedding of `np.arange(0, t, time_step)` with exact rational
arithmetic: the values `0, dt, 2*dt, ...` below `t`, of which numpy
produces `⌈t / dt⌉` (clamped at `0` when the quotient is negative). -/
def arange (t time_step : ℚ) : List ℚ :=
  (List.range (Int.toNat ⌈t / time_step⌉)).map (fun i : ℕ => (i : ℚ) * time_step)

/-- The body of the `for step in np.arange(0, t, time_step)` loop of
`lorenz_values`: for each time stamp, the current state's coordinates are
appended to the three coordinate lists and the time stamp to the time list,
then the state is advanced with `runge_kutta`. -/
def lorenzLoop (func : Vec 3 ℚ → Vec 3 ℚ) (dt : ℚ) :
    List ℚ → Vec 3 ℚ → (Fin 3 → List ℚ) × List ℚ
  | [], _ => (fun _ => [], [])
  | step :: rest, v =>
      let tail := lorenzLoop func dt rest (runge_kutta v func dt)
      (fun m => v m :: tail.1 m, step :: tail.2)

/-- Embedding of `lorenz_values(r, sigma, b, t, time_step, transient, v_0)`
from `slicc_tools.py` (Python defaults: `time_step = 0.01`, `transient = 0`,
`v_0 = [0, 1, 0]`).  Returns the pair `(dim_values, t_values)`.  The
`transient` parameter appears in the Python signature and docstring but is
never read in the body; it is kept here to mirror the source signature. -/
def lorenz_values (r sigma b t : ℚ) (time_step : ℚ) (transient : ℚ)
    (v_0 : Vec 3 ℚ) : (Fin 3 → List ℚ) × List ℚ :=
  let lorenz_var : Vec 3 ℚ → Vec 3 ℚ := fun v => lorenz v r sigma b
  lorenzLoop lorenz_var time_step (arange t time_step) v_0

/-- Embedding of `np.linspace(a, b, num)`: `num` evenly spaced samples of
the closed interval `[a, b]`, both endpoints included when `num ≥ 2`;
`[a]` when `num = 1`; empty when `num = 0`. -/
def linspace {K : Type} [Field K] (a b : K) (num : ℕ) : List K :=
  if num ≤ 1 then (List.range num).map (fun _ => a)
  else (List.range num).map (fun i : ℕ => a + (b - a) * (i : K) / ((num : K) - 1))

/-- Embedding of `logistic(r, x_input)` from `slicc_tools.py`: one logistic
iteration applied to every element of `x_input` in order (the Python
for/append loop is a map).  The Python default input is
`np.linspace(0, 1, 100)`, i.e. `linspace 0 1 100`. -/
def logistic {K : Type} [Field K] (r : K) (x_input : List K) : List K :=
  x_input.map (fun x => r * x * (1 - x))

/-- The `while i < N` loop of `logistic_map`: `N` applications of
`x ↦ r * x * (1 - x)` starting from `x`. -/
def logisticIter {K : Type} [Field K] (r : K) (N : ℕ) (x : K) : K :=
  (fun y => r * y * (1 - y))^[N] x

/-- Embedding of `logistic_map(S, N, r_lim, x_input)` from `slicc_tools.py`
(Python defaults: `r_lim = [1, 4]`; `x_input` defaults to one random draw
from `[0, 1)`, which has no counterpart in a deterministic embedding and is
therefore always passed explicitly).  Returns `(r_values, x_values)`. -/
def logistic_map {K : Type} [Field K] (S N : ℕ) (r_lim : K × K) (x_input : K) :
    List K × List K :=
  let r_values := linspace r_lim.1 r_lim.2 S
  let x_values := r_values.map (fun r => logisticIter r N x_input)
  (r_values, x_values)

/-! Helper lemmas shared by the claim theorems. -/

theorem linspace_length {K : Type} [Field K] (a b : K) (num : ℕ) :
    (linspace a b num).length = num := by
  unfold linspace
  split <;> simp

theorem lorenzLoop_snd (func : Vec 3 ℚ → Vec 3 ℚ) (dt : ℚ) (l : List ℚ)
    (v : Vec 3 ℚ) : (lorenzLoop func dt l v).2 = l := by
  induction l generalizing v with
  | nil => rfl
  | cons s rest ih => simp [lorenzLoop, ih]

theorem lorenzLoop_fst (func : Vec 3 ℚ → Vec 3 ℚ) (dt : ℚ) (l : List ℚ)
    (v : Vec 3 ℚ) (m : Fin 3) :
    (lorenzLoop func dt l v).1 m
      = (List.range l.length).map
          (fun i : ℕ => ((fun u => runge_kutta u func dt)^[i] v) m) := by
  induction l generalizing v with
  | nil => rfl
  | cons s rest ih =>
      simp only [lorenzLoop, List.length_cons, List.range_succ_eq_map,
        List.map_cons, Function.iterate_zero, id_eq, List.map_map]
      rw [ih]
      refine congrArg (v m :: ·) ?_
      apply List.map_congr_left
      intro i _
      simp [Function.comp, Function.iterate_succ_apply]

theorem lorenzLoop_fst_length (func : Vec 3 ℚ → Vec 3 ℚ) (dt : ℚ) (l : List ℚ)
    (v : Vec 3 ℚ) (m : Fin 3) :
    ((lorenzLoop func dt l v).1 m).length = l.length := by
  rw [lorenzLoop_fst]
  simp

theorem arange_length (t dt : ℚ) :
    (arange t dt).length = Int.toNat ⌈t / dt⌉ := by
  simp [arange]

theorem list_map_const_eq_replicate {α β : Type} (l : List α) (x : β) :
    l.map (fun _ => x) = List.replicate l.length x := by
  induction l with
  | nil => rfl
  | cons a rest ih => simp [ih, List.replicate_succ]

/-! Claim theorems. -/

/-- C5: for every state vector `x`, constant vector `c` and step size `dt`,
the RK4 step with the constant governing function `f(x) = c` returns exactly
`x + c*dt` in every component (RK4 collapses to a single Euler step when the
derivative is constant). -/
theorem runge_kutta_const_collapses_to_euler {K : Type} [Field K] [CharZero K]
    {n : ℕ} (x c : Vec n K) (dt : K) :
    runge_kutta x (fun _ => c) dt = fun i => x i + c i * dt := by
  funext i
  simp only [runge_kutta]
  field_simp
  ring

/-- C7: `lorenz_values` returns exactly the same coordinate lists and
time-stamp list for any two values of the `transient` argument when all other
arguments agree: the returned trajectory does not depend on `transient` in
any way (the parameter is never read in the body). -/
theorem lorenz_values_transient_irrelevant (r sigma b t time_step : ℚ)
    (t₁ t₂ : ℚ) (v_0 : Vec 3 ℚ) :
    lorenz_values r sigma b t time_step t₁ v_0
      = lorenz_values r sigma b t time_step t₂ v_0 := rfl

/-- C9: the RK4 step is deterministic and stateless: two calls whose state
vectors, (pure) governing functions and step sizes agree pointwise return
identical vectors; there is no hidden state that could make them differ. -/
theorem runge_kutta_deterministic {K : Type} [Field K] {n : ℕ}
    (x₁ x₂ : Vec n K) (f g : Vec n K → Vec n K) (dt₁ dt₂ : K)
    (hx : ∀ i, x₁ i = x₂ i) (hfg : ∀ v, f v = g v) (hdt : dt₁ = dt₂) :
    runge_kutta x₁ f dt₁ = runge_kutta x₂ g dt₂ := by
  have hx' : x₁ = x₂ := funext hx
  have hfg' : f = g := funext hfg
  rw [hx', hfg', hdt]

/-- Witness for C9: two syntactically different but pointwise identical
calls on a concrete input produce the same output vector. -/
theorem runge_kutta_deterministic_witness :
    runge_kutta (fun _ : Fin 1 => (1 : ℚ)) (fun v => v) (1/10)
      = runge_kutta (fun j : Fin 1 => (1 : ℚ)) (fun v i => v i) (1/10) :=
  runge_kutta_deterministic (fun _ => 1) (fun _ => 1) (fun v => v) (fun v i => v i)
    (1/10) (1/10) (fun _ => rfl) (fun _ => rfl) rfl

/-- C10: for every 3-component vector `v = (x, y, z)` and parameters
`r`, `sigma`, `b`, the Lorenz governing function returns the derivative
vector `(sigma*(y - x), r*x - y - x*z, x*y - b*z)`; its output dimension is
`3`, the input dimension, by the return type `Vec 3 K`. -/
theorem lorenz_governing_equations {K : Type} [Field K]
    (v : Vec 3 K) (r sigma b : K) :
    lorenz v r sigma b 0 = sigma * (v 1 - v 0) ∧
    lorenz v r sigma b 1 = r * v 0 - v 1 - v 0 * v 2 ∧
    lorenz v r sigma b 2 = v 0 * v 1 - b * v 2 := by
  refine ⟨rfl, rfl, rfl⟩

/-- C4: for every `r` and input sequence `x_values`, the single-step logistic
image returns a sequence of the same length whose element at each position
equals `r*x*(1-x)` for the input `x` at that position; no domain restriction
on `r` or the inputs is needed. -/
theorem logistic_image_pointwise {K : Type} [Field K] (r : K)
    (x_input : List K) :
    (logistic r x_input).length = x_input.length ∧
    ∀ i : ℕ, (logistic r x_input).get? i
      = (x_input.get? i).map (fun x => r * x * (1 - x)) := by
  constructor
  · simp [logistic]
  · intro i
    simp [logistic, List.getElem?_map]

/-- C6: with iteration count `N = 0`, the bifurcation scan returns, for every
one of the `S ≥ 1` values of `r`, a final `x` identical to the shared initial
`x`: zero iterations is a no-op on the map state. -/
theorem logistic_map_zero_iterations (S : ℕ) (hS : 1 ≤ S) (r_lim : ℚ × ℚ)
    (x : ℚ) : (logistic_map S 0 r_lim x).2 = List.replicate S x := by
  have h := list_map_const_eq_replicate (linspace r_lim.1 r_lim.2 S) x
  simp only [logistic_map, logisticIter, Function.iterate_zero, id_eq]
  rw [h, linspace_length]

/-- Witness for C6: with `S = 2`, `N = 0`, `r_lim = [1, 4]` and initial
`x = 1/3`, both final values equal `1/3`. -/
theorem logistic_map_zero_iterations_witness :
    1 ≤ 2 ∧ (logistic_map 2 0 ((1 : ℚ), 4) (1/3)).2 = List.replicate 2 (1/3 : ℚ) :=
  ⟨by norm_num, logistic_map_zero_iterations 2 (by norm_num) (1, 4) (1/3)⟩

/-- C3: for `S ≥ 1`, the bifurcation scan returns the `S` evenly spaced `r`
values over `[a, b]` (single value `a` when `S = 1`, else
`a + (b-a)*i/(S-1)` at position `i`) together with, for each `r` in order,
the `N`-fold iterate of `x ↦ r*x*(1-x)` from the shared initial `x`; both
sequences have length `S`; in particular `S = 1`, `r_lim = [2, 2]` yields the
single pair `(2, N-fold logistic iterate at r = 2)`. -/
theorem logistic_map_scan (S N : ℕ) (hS : 1 ≤ S) (a b x : ℚ) :
    (logistic_map S N (a, b) x).1.length = S ∧
    (logistic_map S N (a, b) x).2.length = S ∧
    (logistic_map S N (a, b) x).1
      = (List.range S).map
          (fun i : ℕ => if S = 1 then a else a + (b - a) * (i : ℚ) / ((S : ℚ) - 1)) ∧
    (logistic_map S N (a, b) x).2
      = (logistic_map S N (a, b) x).1.map (fun r => (fun y => r * y * (1 - y))^[N] x) ∧
    (S = 1 → a = 2 → b = 2 →
      (logistic_map S N (a, b) x).1 = [2] ∧
      (logistic_map S N (a, b) x).2 = [(fun y => 2 * y * (1 - y))^[N] x]) := by
  refine ⟨?_, ?_, ?_, ?_, ?_⟩
  · simp [logistic_map, linspace_length]
  · simp [logistic_map, linspace_length]
  · rcases eq_or_lt_of_le hS with h1 | h2
    · have hS1 : S = 1 := h1.symm
      subst hS1
      simp [logistic_map, linspace, List.range_succ]
    · have hle : ¬ S ≤ 1 := by omega
      have hne : S ≠ 1 := by omega
      simp [logistic_map, linspace, hle, hne]
  · simp [logistic_map, logisticIter]
  · intro h1 ha hb
    subst h1 ha hb
    constructor
    · simp [logistic_map, linspace, List.range_succ]
    · simp [logistic_map, linspace, logisticIter, List.range_succ]

/-- Witness for C3: `S = 1`, `N = 2`, `r_lim = [2, 2]`, initial `x = 1/2`
gives the single pair `(2, (2*y*(1-y))^[2] applied to 1/2)`. -/
theorem logistic_map_scan_witness :
    1 ≤ 1 ∧ ((logistic_map 1 2 ((2 : ℚ), 2) (1/2)).1 = [2] ∧
      (logistic_map 1 2 ((2 : ℚ), 2) (1/2)).2
        = [(fun y : ℚ => 2 * y * (1 - y))^[2] (1/2)]) :=
  ⟨le_refl 1, (logistic_map_scan 1 2 (le_refl 1) 2 2 (1/2)).2.2.2.2 rfl rfl rfl⟩

/-- Counterexample to C1 as stated: with `r = sigma = b = 1`,
`t = 3/100`, `time_step = 1/100`, `transient = 0` and `v_0 = (0, 1, 0)`,
the sampler performs `k = 3` integration steps (three loop iterations, one
per time stamp), yet the returned x-coordinate list has length `3`, not
`k + 1 - transient = 4`: the state reached after the final step is computed
but never recorded, and no transient trim ever happens. -/
theorem lorenz_values_length_counterexample :
    ((lorenz_values 1 1 1 (3/100) (1/100) 0 ![0, 1, 0]).2).length = 3 ∧
    ¬ (((lorenz_values 1 1 1 (3/100) (1/100) 0 ![0, 1, 0]).1 0).length
        = 3 + 1 - 0) := by
  have hceil : ⌈(3/100 : ℚ) / (1/100)⌉ = 3 := by norm_num
  have h3 : (arange (3/100) (1/100)).length = 3 := by
    rw [arange_length, hceil]
    rfl
  constructor
  · simp only [lorenz_values, lorenzLoop_snd]
    exact h3
  · simp only [lorenz_values, lorenzLoop_fst_length, h3]
    decide

/-- C1 (amended): run over duration `t` with step `time_step`, the sampler
performs `k = (arange t time_step).length = ⌈t/time_step⌉` loop iterations;
the time-stamp list is exactly `arange t time_step`; each coordinate list has
length exactly `k` (not `k + 1`): its entry at position `i` is the result of
`i` sequential `runge_kutta` calls from `v_0` (the initial state included,
the state computed by the final call discarded); and the `transient` argument
is ignored — no trim is performed. -/
theorem lorenz_values_trajectory (r sigma b t time_step transient : ℚ)
    (v_0 : Vec 3 ℚ) (m : Fin 3) :
    (lorenz_values r sigma b t time_step transient v_0).2 = arange t time_step ∧
    ((lorenz_values r sigma b t time_step transient v_0).1 m).length
      = (arange t time_step).length ∧
    (lorenz_values r sigma b t time_step transient v_0).1 m
      = (List.range (arange t time_step).length).map
          (fun i : ℕ =>
            ((fun v => runge_kutta v (fun u => lorenz u r sigma b) time_step)^[i] v_0) m) ∧
    lorenz_values r sigma b t time_step transient v_0
      = lorenz_values r sigma b t time_step 0 v_0 := by
  refine ⟨?_, ?_, ?_, rfl⟩
  · simp only [lorenz_values, lorenzLoop_snd]
  · simp only [lorenz_values, lorenzLoop_fst_length]
  · simp only [lorenz_values, lorenzLoop_fst]

/-- C2: the RK4 step returns `x + (k1 + 2*k2 + 2*k3 + k4)/6` with
`k1 = f(x)*dt`, `k2 = f(x + k1/2)*dt`, `k3 = f(x + k2/2)*dt` and
`k4 = f(x + k3)*dt`, all arithmetic element-wise; and a call that omits `dt`
uses the default step size `0.1`. -/
theorem runge_kutta_classic_formula {K : Type} [Field K] [CharZero K] {n : ℕ}
    (x : Vec n K) (f : Vec n K → Vec n K) (dt : K) :
    (runge_kutta x f dt = fun i =>
      let k1 : Vec n K := fun j => f x j * dt
      let k2 : Vec n K := fun j => f (fun a => x a + k1 a / 2) j * dt
      let k3 : Vec n K := fun j => f (fun a => x a + k2 a / 2) j * dt
      let k4 : Vec n K := fun j => f (fun a => x a + k3 a) j * dt
      x i + (k1 i + 2 * k2 i + 2 * k3 i + k4 i) / 6) ∧
    runge_kutta_omit_dt x f = runge_kutta x f (1/10) := by
  constructor
  · have h2 : (fun a => x a + (f x a * dt) / 2)
        = (fun a => x a + 1/2 * (f x a * dt)) := by
      funext a; ring
    have h3 : (fun a => x a + (f (fun b => x b + 1/2 * (f x b * dt)) a * dt) / 2)
        = (fun a => x a + 1/2 * (f (fun b => x b + 1/2 * (f x b * dt)) a * dt)) := by
      funext a; ring
    funext i
    simp only [runge_kutta, h2, h3]
    field_simp
  · rfl

/-- C8: the RK4 step on the scalar exponential-growth equation `dx/dt = x`
from `x = 1` with `dt = 0.1` returns the degree-4 Taylor truncation
`1 + 0.1 + 0.1^2/2 + 0.1^3/6 + 0.1^4/24` of `e^0.1 ≈ 1.10517`, and that
value differs from `e^0.1` by less than `0.1^5`. -/
theorem runge_kutta_exp_growth_step :
    runge_kutta (fun _ : Fin 1 => (1 : ℝ)) (fun v => v) (1/10) 0
      = 1 + 1/10 + (1/10)^2/2 + (1/10)^3/6 + (1/10)^4/24 ∧
    |runge_kutta (fun _ : Fin 1 => (1 : ℝ)) (fun v => v) (1/10) 0
        - Real.exp (1/10)| < (1/10)^5 := by
  have hval : runge_kutta (fun _ : Fin 1 => (1 : ℝ)) (fun v => v) (1/10) 0
      = 1 + 1/10 + (1/10)^2/2 + (1/10)^3/6 + (1/10)^4/24 := by
    simp only [runge_kutta]
    norm_num
  refine ⟨hval, ?_⟩
  have hsum : ∑ m ∈ Finset.range 5, ((1:ℝ)/10) ^ m / m.factorial
      = 1 + 1/10 + (1/10)^2/2 + (1/10)^3/6 + (1/10)^4/24 := by
    simp [Finset.sum_range_succ, Nat.factorial]
  have hb := @Real.exp_bound (1/10) (by rw [abs_of_nonneg] <;> norm_num) 5 (by norm_num)
  rw [hsum] at hb
  rw [hval, abs_sub_comm]
  have hr : |(1:ℝ)/10| ^ 5 * ((5:ℕ).succ / ((5:ℕ).factorial * (5:ℕ))) < (1/10)^5 := by
    rw [abs_of_nonneg] <;> norm_num [Nat.factorial]
  exact lt_of_le_of_lt hb hr

/-- Witness for C2: instantiated over `ℚ` at `x = (1)`, `f = id`,
`dt = 1/10`; in particular the call omitting `dt` equals the call with the
default `dt = 1/10`. -/
theorem runge_kutta_classic_formula_witness :
    runge_kutta_omit_dt (fun _ : Fin 1 => (1 : ℚ)) (fun v => v)
      = runge_kutta (fun _ : Fin 1 => (1 : ℚ)) (fun v => v) (1/10) :=
  (runge_kutta_classic_formula (fun _ : Fin 1 => (1 : ℚ)) (fun v => v) (1/10)).2

/-- Witness for C5: over `ℚ`, stepping the constant derivative `c = (3)`
from `x = (2)` with `dt = 1/10` lands exactly on `2 + 3 * (1/10)`. -/
theorem runge_kutta_const_collapses_to_euler_witness :
    runge_kutta (fun _ : Fin 1 => (2 : ℚ)) (fun _ => fun _ => (3 : ℚ)) (1/10)
      = fun _ => 2 + 3 * (1/10) :=
  runge_kutta_const_collapses_to_euler (fun _ => 2) (fun _ => 3) (1/10)
